import Mathlib

/-!
Verification of the WPAUV attitude-estimation core.

Shallow embedding, over the real numbers, of:
* `FQA.estimate` (ahrs/filters/fqa.py, lines 303-360) together with its
  constructor's reference-field preprocessing (lines 273-278);
* `ROLEQ.attitude_propagation`, `ROLEQ.WW` and `ROLEQ.oleq`
  (ahrs/filters/roleq.py, lines 200-296);
* the 48 candidate alignment matrices of `calib.py` (lines 17-26);
* the degree-radian unwrap transform of `calib.py` (lines 44-46),
  following numpy's `unwrap` algorithm.

Machine floats are modelled as real numbers; `numpy.sign` is the literal
three-valued sign, division by zero follows Lean's `x / 0 = 0` convention
(the float code produces NaN there, i.e. no well-defined quaternion, and the
theorems about those inputs state that the computed norm is 0, not 1).
-/

namespace WPAUV

noncomputable section

/-- numpy.sign: +1 for positive, -1 for negative, 0 for zero. -/
def sgn (x : ℝ) : ℝ := if 0 < x then 1 else if x < 0 then -1 else 0

/-- Euclidean norm of a 2-vector (numpy.linalg.norm). -/
def norm2 (v : Fin 2 → ℝ) : ℝ := Real.sqrt (v 0 ^ 2 + v 1 ^ 2)

/-- Euclidean norm of a 3-vector (numpy.linalg.norm). -/
def norm3 (v : Fin 3 → ℝ) : ℝ := Real.sqrt (v 0 ^ 2 + v 1 ^ 2 + v 2 ^ 2)

/-- Sum of squared components of a quaternion. -/
def sumsq4 (q : Fin 4 → ℝ) : ℝ := q 0 ^ 2 + q 1 ^ 2 + q 2 ^ 2 + q 3 ^ 2

/-- Euclidean norm of a 4-vector / quaternion (numpy.linalg.norm). -/
def norm4 (q : Fin 4 → ℝ) : ℝ := Real.sqrt (sumsq4 q)

/-- Modelled from the spec: `multiply(q1, q2)` is the Hamilton product in
scalar-first convention (spec section 4.1).  The function `q_prod` lives in
`ahrs.common.orientation`, which is not vendored under `src/`; only its
callers `fqa.py` and `roleq.py` are. -/
def q_prod (p q : Fin 4 → ℝ) : Fin 4 → ℝ :=
  ![p 0 * q 0 - p 1 * q 1 - p 2 * q 2 - p 3 * q 3,
    p 0 * q 1 + p 1 * q 0 + p 2 * q 3 - p 3 * q 2,
    p 0 * q 2 - p 1 * q 3 + p 2 * q 0 + p 3 * q 1,
    p 0 * q 3 + p 1 * q 2 - p 2 * q 1 + p 3 * q 0]

/-- Modelled from the spec: `conjugate(q)` negates the vector part
(spec section 4.1).  `q_conj` lives in `ahrs.common.orientation`, not
vendored under `src/`. -/
def q_conj (q : Fin 4 → ℝ) : Fin 4 → ℝ := ![q 0, -(q 1), -(q 2), -(q 3)]

/-- `q / numpy.linalg.norm(q)` on a 4-vector. -/
def normalize4 (q : Fin 4 → ℝ) : Fin 4 → ℝ := fun i => q i / norm4 q

/-- `v / numpy.linalg.norm(v)` on a 3-vector. -/
def normalized3 (v : Fin 3 → ℝ) : Fin 3 → ℝ := fun i => v i / norm3 v

/-! ### FQA (fqa.py lines 303-360), applied to the already-normalized
accelerometer vector `a`. -/

/-- fqa.py line 325: `c_theta = sqrt(1 - s_theta**2)` with `s_theta = a[0]`. -/
def c_theta (a : Fin 3 → ℝ) : ℝ := Real.sqrt (1 - a 0 ^ 2)

/-- fqa.py line 326: `s_theta_2 = sign(s_theta) * sqrt((1 - c_theta)/2)`. -/
def s_theta_2 (a : Fin 3 → ℝ) : ℝ := sgn (a 0) * Real.sqrt ((1 - c_theta a) / 2)

/-- fqa.py line 327: `c_theta_2 = sqrt((1 + c_theta)/2)`. -/
def c_theta_2 (a : Fin 3 → ℝ) : ℝ := Real.sqrt ((1 + c_theta a) / 2)

/-- fqa.py lines 328-329: elevation quaternion, normalized in place. -/
def q_e (a : Fin 3 → ℝ) : Fin 4 → ℝ := normalize4 ![c_theta_2 a, 0, s_theta_2 a, 0]

/-- fqa.py lines 331-332: `s_phi = 0 if c_theta == 0 else -a[1]/c_theta`. -/
def s_phi (a : Fin 3 → ℝ) : ℝ := if c_theta a = 0 then 0 else -(a 1) / c_theta a

/-- fqa.py lines 331, 333: `c_phi = 0 if c_theta == 0 else -a[2]/c_theta`. -/
def c_phi (a : Fin 3 → ℝ) : ℝ := if c_theta a = 0 then 0 else -(a 2) / c_theta a

/-- fqa.py line 334: `s_phi_2 = sign(s_phi) * sqrt((1 - c_phi)/2)`. -/
def s_phi_2 (a : Fin 3 → ℝ) : ℝ := sgn (s_phi a) * Real.sqrt ((1 - c_phi a) / 2)

/-- fqa.py line 335: `c_phi_2 = sqrt((1 + c_phi)/2)`. -/
def c_phi_2 (a : Fin 3 → ℝ) : ℝ := Real.sqrt ((1 + c_phi a) / 2)

/-- fqa.py line 336: the roll quaternion before its normalization. -/
def q_r_pre (a : Fin 3 → ℝ) : Fin 4 → ℝ := ![c_phi_2 a, s_phi_2 a, 0, 0]

/-- fqa.py line 337: `q_r /= norm(q_r)`. -/
def q_r (a : Fin 3 → ℝ) : Fin 4 → ℝ := normalize4 (q_r_pre a)

/-- fqa.py lines 338-339: `q_er = q_prod(q_e, q_r); q_er /= norm(q_er)`. -/
def q_er (a : Fin 3 → ℝ) : Fin 4 → ℝ := normalize4 (q_prod (q_e a) (q_r a))

/-- fqa.py lines 277-278 (FQA.__init__): the stored reference is the first two
components of `mag_ref`, normalized. -/
def m_ref_of (mag_ref : Fin 3 → ℝ) : Fin 2 → ℝ :=
  fun i => ![mag_ref 0, mag_ref 1] i / norm2 ![mag_ref 0, mag_ref 1]

/-- fqa.py lines 303-360: `FQA.estimate(acc, mag)` with the instance's stored
horizontal reference `m_ref` passed explicitly.  Mirrors the source line by
line: zero-norm accelerometer returns the identity quaternion; zero-norm
magnetometer returns `q_er`; otherwise the azimuth correction is applied. -/
def estimate (m_ref : Fin 2 → ℝ) (acc mag : Fin 3 → ℝ) : Fin 4 → ℝ :=
  if norm3 acc = 0 then ![1, 0, 0, 0]
  else
    let a := normalized3 acc
    if ¬ norm3 mag > 0 then q_er a
    else
      let m := normalized3 mag
      let bm : Fin 4 → ℝ := ![0, m 0, m 1, m 2]
      let em := q_prod (q_e a) (q_prod (q_r a) (q_prod bm (q_prod (q_conj (q_r a)) (q_conj (q_e a)))))
      let emn := normalize4 em
      let c_psi := emn 1 * m_ref 0 + emn 2 * m_ref 1
      let s_psi := -(emn 2) * m_ref 0 + emn 1 * m_ref 1
      let q_a := normalize4 ![Real.sqrt ((1 + c_psi) / 2), 0, 0, sgn s_psi * Real.sqrt ((1 - c_psi) / 2)]
      normalize4 (q_prod q_a (q_er a))

/-! ### ROLEQ (roleq.py lines 200-296). -/

/-- roleq.py lines 224-228: the 4x4 angular-velocity operator. -/
def Omega (w : Fin 3 → ℝ) : Fin 4 → Fin 4 → ℝ :=
  ![![0, -(w 0), -(w 1), -(w 2)],
    ![w 0, 0, w 2, -(w 1)],
    ![w 1, -(w 2), 0, w 0],
    ![w 2, w 1, -(w 0), 0]]

/-- 4x4 matrix times 4-vector. -/
def mat4vec (M : Fin 4 → Fin 4 → ℝ) (v : Fin 4 → ℝ) : Fin 4 → ℝ :=
  fun i => ∑ j, M i j * v j

/-- roleq.py lines 224-230: `q_omega = (I + 0.5*Dt*Omega) @ q`, normalized. -/
def attitude_propagation (Dt : ℝ) (q : Fin 4 → ℝ) (omega : Fin 3 → ℝ) : Fin 4 → ℝ :=
  normalize4 (mat4vec (fun i j => (if i = j then 1 else 0) + 0.5 * Dt * Omega omega i j) q)

/-- roleq.py lines 252-256: matrix M1 of the W construction. -/
def Mone (b : Fin 3 → ℝ) : Fin 4 → Fin 4 → ℝ :=
  ![![b 0, 0, b 2, -(b 1)],
    ![0, b 0, b 1, b 2],
    ![b 2, b 1, -(b 0), 0],
    ![-(b 1), b 2, 0, -(b 0)]]

/-- roleq.py lines 257-261: matrix M2 of the W construction. -/
def Mtwo (b : Fin 3 → ℝ) : Fin 4 → Fin 4 → ℝ :=
  ![![b 1, -(b 2), 0, b 0],
    ![-(b 2), -(b 1), b 0, 0],
    ![0, b 0, b 1, b 2],
    ![b 0, 0, b 2, -(b 1)]]

/-- roleq.py lines 262-266: matrix M3 of the W construction. -/
def Mthree (b : Fin 3 → ℝ) : Fin 4 → Fin 4 → ℝ :=
  ![![b 2, b 1, -(b 0), 0],
    ![b 1, -(b 2), 0, b 0],
    ![-(b 0), 0, -(b 2), b 1],
    ![0, b 0, b 1, b 2]]

/-- roleq.py lines 232-267: `WW(Db, Dr) = rx*M1 + ry*M2 + rz*M3`. -/
def WW (Db Dr : Fin 3 → ℝ) : Fin 4 → Fin 4 → ℝ :=
  fun i j => Dr 0 * Mone Db i j + Dr 1 * Mtwo Db i j + Dr 2 * Mthree Db i j

/-- roleq.py lines 269-296: `ROLEQ.oleq(acc, mag, q_omega)` with the
instance's weights `w` and reference vectors passed explicitly.  Zero-norm
accelerometer or magnetometer returns the propagated quaternion unchanged. -/
def oleq (w : Fin 2 → ℝ) (a_ref m_ref : Fin 3 → ℝ) (acc mag : Fin 3 → ℝ)
    (q_omega : Fin 4 → ℝ) : Fin 4 → ℝ :=
  if ¬ norm3 acc > 0 ∨ ¬ norm3 mag > 0 then q_omega
  else
    let a := normalized3 acc
    let m := normalized3 mag
    let R := fun i j =>
      0.5 * ((if i = j then (1 : ℝ) else 0) + (w 0 * WW a a_ref i j + w 1 * WW m m_ref i j))
    normalize4 (mat4vec R q_omega)

/-! ### Basic facts about the embedding. -/

theorem norm3_nonneg (v : Fin 3 → ℝ) : 0 ≤ norm3 v := Real.sqrt_nonneg _

theorem norm4_nonneg (q : Fin 4 → ℝ) : 0 ≤ norm4 q := Real.sqrt_nonneg _

theorem norm3_zvec : norm3 ![0, 0, 0] = 0 := by
  simp [norm3]

theorem sumsq4_nonneg (q : Fin 4 → ℝ) : 0 ≤ sumsq4 q := by
  unfold sumsq4; positivity

theorem norm4_eq_zero_iff (q : Fin 4 → ℝ) : norm4 q = 0 ↔ sumsq4 q = 0 := by
  unfold norm4
  rw [Real.sqrt_eq_zero (sumsq4_nonneg q)]

/-- Euler's four-square identity, as preserved by the Hamilton product. -/
theorem sumsq4_q_prod (p q : Fin 4 → ℝ) :
    sumsq4 (q_prod p q) = sumsq4 p * sumsq4 q := by
  simp only [sumsq4, q_prod, Matrix.cons_val_zero, Matrix.cons_val_one,
    Matrix.head_cons, Matrix.cons_val_two, Matrix.tail_cons, Matrix.cons_val_three]
  ring

/-- The Hamilton product is norm-multiplicative. -/
theorem norm4_q_prod (p q : Fin 4 → ℝ) :
    norm4 (q_prod p q) = norm4 p * norm4 q := by
  unfold norm4
  rw [sumsq4_q_prod, Real.sqrt_mul (sumsq4_nonneg p)]

/-- Normalizing a nonzero 4-vector yields a unit-norm vector. -/
theorem norm4_normalize4 (q : Fin 4 → ℝ) (h : norm4 q ≠ 0) :
    norm4 (normalize4 q) = 1 := by
  have hs : sumsq4 (normalize4 q) = sumsq4 q / norm4 q ^ 2 := by
    unfold normalize4 sumsq4
    ring
  have hn2 : norm4 q ^ 2 = sumsq4 q := Real.sq_sqrt (sumsq4_nonneg q)
  have hs0 : sumsq4 q ≠ 0 := fun h0 => h ((norm4_eq_zero_iff q).mpr h0)
  unfold norm4
  rw [hs, hn2, div_self hs0, Real.sqrt_one]

/-- Normalizing a vector that already has norm 1 leaves it unchanged. -/
theorem normalize4_of_norm_one (q : Fin 4 → ℝ) (h : norm4 q = 1) :
    normalize4 q = q := by
  funext i
  unfold normalize4
  rw [h, div_one]

theorem sgn_zero : sgn 0 = 0 := by
  unfold sgn
  norm_num

theorem sgn_sq_of_ne_zero (x : ℝ) (h : x ≠ 0) : sgn x ^ 2 = 1 := by
  unfold sgn
  rcases lt_trichotomy x 0 with hx | hx | hx
  · rw [if_neg (not_lt.mpr hx.le), if_pos hx]; norm_num
  · exact absurd hx h
  · rw [if_pos hx]; norm_num

theorem sqrt_half_eq : Real.sqrt (1 / 2) = Real.sqrt 2 / 2 := by
  rw [show (1 : ℝ) / 2 = 2 / 4 by norm_num,
    Real.sqrt_div (by norm_num : (0:ℝ) ≤ 2) 4,
    show (4 : ℝ) = 2 ^ 2 by norm_num,
    Real.sqrt_sq (by norm_num : (0:ℝ) ≤ 2)]

/-- Shared helper: `estimate` with a zero-norm magnetometer is `q_er` of the
normalized accelerometer (fqa.py lines 341-343). -/
theorem estimate_mag0 (m_ref : Fin 2 → ℝ) (acc mag : Fin 3 → ℝ)
    (ha : norm3 acc ≠ 0) (hm : norm3 mag = 0) :
    estimate m_ref acc mag = q_er (normalized3 acc) := by
  unfold estimate
  rw [if_neg ha, if_pos]
  rw [hm]
  exact lt_irrefl 0

/-- Shared helper: with a unit-norm accelerometer the internal normalization
is the identity. -/
theorem normalized3_of_norm_one (acc : Fin 3 → ℝ) (h : norm3 acc = 1) :
    normalized3 acc = acc := by
  funext i
  unfold normalized3
  rw [h, div_one]

/-! ### Concrete evaluations at the inputs (0,0,1) and (1,0,0). -/

theorem norm4_zero4 : norm4 ![0, 0, 0, 0] = 0 := by
  simp [norm4, sumsq4]

theorem normalize4_zero4 : normalize4 ![(0 : ℝ), 0, 0, 0] = ![0, 0, 0, 0] := by
  funext i
  unfold normalize4
  fin_cases i <;> simp

theorem norm3_e3 : norm3 ![0, 0, 1] = 1 := by
  simp [norm3]

theorem c_theta_e3 : c_theta ![0, 0, 1] = 1 := by
  unfold c_theta
  norm_num

theorem c_phi_e3 : c_phi ![0, 0, 1] = -1 := by
  unfold c_phi
  rw [c_theta_e3]
  norm_num

theorem s_phi_e3 : s_phi ![0, 0, 1] = 0 := by
  unfold s_phi
  rw [c_theta_e3]
  norm_num

theorem q_r_pre_e3 : q_r_pre ![0, 0, 1] = ![0, 0, 0, 0] := by
  have hs2 : s_phi_2 ![0, 0, 1] = 0 := by
    unfold s_phi_2
    rw [s_phi_e3, sgn_zero, zero_mul]
  have hc2 : c_phi_2 ![0, 0, 1] = 0 := by
    unfold c_phi_2
    rw [c_phi_e3]
    norm_num
  unfold q_r_pre
  rw [hs2, hc2]

theorem q_er_e3 : q_er ![0, 0, 1] = ![0, 0, 0, 0] := by
  have hqr : q_r ![0, 0, 1] = ![0, 0, 0, 0] := by
    unfold q_r
    rw [q_r_pre_e3, normalize4_zero4]
  have hprod : q_prod (q_e ![0, 0, 1]) ![0, 0, 0, 0] = ![0, 0, 0, 0] := by
    funext i
    fin_cases i <;> simp [q_prod]
  unfold q_er
  rw [hqr, hprod, normalize4_zero4]

theorem estimate_e3 (m_ref : Fin 2 → ℝ) :
    estimate m_ref ![0, 0, 1] ![0, 0, 0] = ![0, 0, 0, 0] := by
  rw [estimate_mag0 m_ref ![0, 0, 1] ![0, 0, 0]
      (by rw [norm3_e3]; exact one_ne_zero) norm3_zvec,
    normalized3_of_norm_one ![0, 0, 1] norm3_e3, q_er_e3]

theorem norm3_e1 : norm3 ![1, 0, 0] = 1 := by
  simp [norm3]

theorem c_theta_e1 : c_theta ![1, 0, 0] = 0 := by
  unfold c_theta
  norm_num

theorem q_er_e1 : q_er ![1, 0, 0] = ![Real.sqrt (1 / 2), 0, Real.sqrt (1 / 2), 0] := by
  have hqe : q_e ![1, 0, 0] = ![Real.sqrt (1 / 2), 0, Real.sqrt (1 / 2), 0] := by
    have hpre : (![c_theta_2 ![1, 0, 0], 0, s_theta_2 ![1, 0, 0], 0] : Fin 4 → ℝ)
        = ![Real.sqrt (1 / 2), 0, Real.sqrt (1 / 2), 0] := by
      have h1 : c_theta_2 ![1, 0, 0] = Real.sqrt (1 / 2) := by
        unfold c_theta_2
        rw [c_theta_e1]
        norm_num
      have h2 : s_theta_2 ![1, 0, 0] = Real.sqrt (1 / 2) := by
        unfold s_theta_2 sgn
        rw [c_theta_e1]
        norm_num
      rw [h1, h2]
    have hn : norm4 ![Real.sqrt (1 / 2), 0, Real.sqrt (1 / 2), 0] = 1 := by
      unfold norm4 sumsq4
      rw [show (![Real.sqrt (1 / 2), 0, Real.sqrt (1 / 2), 0] : Fin 4 → ℝ) 0 = Real.sqrt (1 / 2) from rfl,
        show (![Real.sqrt (1 / 2), 0, Real.sqrt (1 / 2), 0] : Fin 4 → ℝ) 1 = 0 from rfl,
        show (![Real.sqrt (1 / 2), 0, Real.sqrt (1 / 2), 0] : Fin 4 → ℝ) 2 = Real.sqrt (1 / 2) from rfl,
        show (![Real.sqrt (1 / 2), 0, Real.sqrt (1 / 2), 0] : Fin 4 → ℝ) 3 = 0 from rfl,
        Real.sq_sqrt (by norm_num : (0:ℝ) ≤ 1 / 2)]
      norm_num [Real.sqrt_one]
    unfold q_e
    rw [hpre, normalize4_of_norm_one _ hn]
  have hqr : q_r ![1, 0, 0] = ![1, 0, 0, 0] := by
    have hs2 : s_phi_2 ![1, 0, 0] = 0 := by
      unfold s_phi_2 s_phi
      rw [if_pos c_theta_e1, sgn_zero, zero_mul]
    have hc2 : c_phi_2 ![1, 0, 0] = Real.sqrt (1 / 2) := by
      unfold c_phi_2 c_phi
      rw [if_pos c_theta_e1]
      norm_num
    have hpre : q_r_pre ![1, 0, 0] = ![Real.sqrt (1 / 2), 0, 0, 0] := by
      unfold q_r_pre
      rw [hs2, hc2]
    have hnpre : norm4 ![Real.sqrt (1 / 2), 0, 0, 0] = Real.sqrt (1 / 2) := by
      unfold norm4 sumsq4
      rw [show (![Real.sqrt (1 / 2), 0, 0, 0] : Fin 4 → ℝ) 0 = Real.sqrt (1 / 2) from rfl,
        show (![Real.sqrt (1 / 2), 0, 0, 0] : Fin 4 → ℝ) 1 = 0 from rfl,
        show (![Real.sqrt (1 / 2), 0, 0, 0] : Fin 4 → ℝ) 2 = 0 from rfl,
        show (![Real.sqrt (1 / 2), 0, 0, 0] : Fin 4 → ℝ) 3 = 0 from rfl,
        Real.sq_sqrt (by norm_num : (0:ℝ) ≤ 1 / 2)]
      norm_num
    have hne : Real.sqrt (1 / 2) ≠ 0 :=
      Real.sqrt_ne_zero'.mpr (by norm_num)
    unfold q_r normalize4
    rw [hpre, hnpre]
    funext i
    fin_cases i <;> simp [hne]
  unfold q_er
  rw [hqe, hqr]
  have hprod : q_prod ![Real.sqrt (1 / 2), 0, Real.sqrt (1 / 2), 0] ![1, 0, 0, 0]
      = ![Real.sqrt (1 / 2), 0, Real.sqrt (1 / 2), 0] := by
    funext i
    fin_cases i <;> simp [q_prod]
  rw [hprod]
  apply normalize4_of_norm_one
  unfold norm4 sumsq4
  rw [show (![Real.sqrt (1 / 2), 0, Real.sqrt (1 / 2), 0] : Fin 4 → ℝ) 0 = Real.sqrt (1 / 2) from rfl,
    show (![Real.sqrt (1 / 2), 0, Real.sqrt (1 / 2), 0] : Fin 4 → ℝ) 1 = 0 from rfl,
    show (![Real.sqrt (1 / 2), 0, Real.sqrt (1 / 2), 0] : Fin 4 → ℝ) 2 = Real.sqrt (1 / 2) from rfl,
    show (![Real.sqrt (1 / 2), 0, Real.sqrt (1 / 2), 0] : Fin 4 → ℝ) 3 = 0 from rfl,
    Real.sq_sqrt (by norm_num : (0:ℝ) ≤ 1 / 2)]
  norm_num [Real.sqrt_one]

/-! ### Norm analysis of the elevation and roll quaternions. -/

/-- The elevation quaternion of fqa.py lines 324-329 is a unit quaternion:
`c_theta` always lands in [0, 1], so the half-angle values are well defined. -/
theorem norm4_q_e (a : Fin 3 → ℝ) : norm4 (q_e a) = 1 := by
  have hc0 : 0 ≤ c_theta a := Real.sqrt_nonneg _
  have hc1 : c_theta a ≤ 1 := by
    unfold c_theta
    calc Real.sqrt (1 - a 0 ^ 2) ≤ Real.sqrt 1 :=
          Real.sqrt_le_sqrt (by nlinarith [sq_nonneg (a 0)])
      _ = 1 := Real.sqrt_one
  have hct2 : c_theta_2 a ^ 2 = (1 + c_theta a) / 2 := by
    unfold c_theta_2
    exact Real.sq_sqrt (by linarith)
  have hst2 : s_theta_2 a ^ 2 = sgn (a 0) ^ 2 * ((1 - c_theta a) / 2) := by
    unfold s_theta_2
    rw [mul_pow, Real.sq_sqrt (by linarith)]
  have hpre : sumsq4 ![c_theta_2 a, 0, s_theta_2 a, 0] = 1 := by
    simp only [sumsq4, Matrix.cons_val_zero, Matrix.cons_val_one, Matrix.head_cons,
      Matrix.cons_val_two, Matrix.tail_cons, Matrix.cons_val_three]
    rw [hct2, hst2]
    by_cases h00 : a 0 = 0
    · have hc : c_theta a = 1 := by
        unfold c_theta
        rw [h00]
        norm_num
      rw [h00, sgn_zero, hc]
      norm_num
    · rw [sgn_sq_of_ne_zero _ h00]
      ring
  have hn : norm4 ![c_theta_2 a, 0, s_theta_2 a, 0] = 1 := by
    unfold norm4
    rw [hpre, Real.sqrt_one]
  unfold q_e
  rw [normalize4_of_norm_one _ hn, hn]

/-- The (in-place normalized) roll quaternion of fqa.py lines 330-337 is a
unit quaternion for every unit accelerometer outside the degenerate set
`a 1 = 0 ∧ 0 < a 2` (where the pre-normalization quaternion vanishes). -/
theorem norm4_q_r (a : Fin 3 → ℝ) (hu : a 0 ^ 2 + a 1 ^ 2 + a 2 ^ 2 = 1)
    (hnd : ¬ (a 1 = 0 ∧ 0 < a 2)) : norm4 (q_r a) = 1 := by
  have hexp : sumsq4 (q_r_pre a) = c_phi_2 a ^ 2 + s_phi_2 a ^ 2 := by
    simp only [sumsq4, q_r_pre, Matrix.cons_val_zero, Matrix.cons_val_one, Matrix.head_cons,
      Matrix.cons_val_two, Matrix.tail_cons, Matrix.cons_val_three]
    ring
  have hkey : sumsq4 (q_r_pre a) ≠ 0 := by
    by_cases hsing : c_theta a = 0
    · have hcφ : c_phi a = 0 := by
        unfold c_phi
        rw [if_pos hsing]
      have hc2 : c_phi_2 a ^ 2 = 1 / 2 := by
        unfold c_phi_2
        rw [hcφ, Real.sq_sqrt (by norm_num)]
        norm_num
      rw [hexp]
      nlinarith [sq_nonneg (s_phi_2 a)]
    · have hcθpos : 0 < c_theta a := lt_of_le_of_ne (Real.sqrt_nonneg _) (Ne.symm hsing)
      have hcθsq : c_theta a ^ 2 = 1 - a 0 ^ 2 := by
        unfold c_theta
        exact Real.sq_sqrt (by nlinarith [sq_nonneg (a 1), sq_nonneg (a 2)])
      have hsφ : s_phi a = -(a 1) / c_theta a := by
        unfold s_phi
        rw [if_neg hsing]
      have hcφ : c_phi a = -(a 2) / c_theta a := by
        unfold c_phi
        rw [if_neg hsing]
      have hsum : s_phi a ^ 2 + c_phi a ^ 2 = 1 := by
        rw [hsφ, hcφ]
        field_simp
        nlinarith [hcθsq]
      have hcφ_ge : -1 ≤ c_phi a := by nlinarith [sq_nonneg (s_phi a)]
      by_cases hcm : c_phi a = -1
      · exfalso
        have hsφ0 : s_phi a = 0 := by
          have h2 : s_phi a ^ 2 = 0 := by nlinarith
          exact sq_eq_zero_iff.mp h2
        have ha1 : a 1 = 0 := by
          rw [hsφ] at hsφ0
          rcases div_eq_zero_iff.mp hsφ0 with h | h
          · linarith [neg_eq_zero.mp h]
          · exact absurd h hsing
        have ha2 : a 2 = c_theta a := by
          rw [hcφ] at hcm
          field_simp at hcm
          linarith
        exact hnd ⟨ha1, ha2 ▸ hcθpos⟩
      · have hgt : -1 < c_phi a := lt_of_le_of_ne hcφ_ge (Ne.symm hcm)
        have hc2 : c_phi_2 a ^ 2 = (1 + c_phi a) / 2 := by
          unfold c_phi_2
          exact Real.sq_sqrt (by linarith)
        rw [hexp]
        nlinarith [sq_nonneg (s_phi_2 a)]
  have hn0 : norm4 (q_r_pre a) ≠ 0 := fun hh => hkey ((norm4_eq_zero_iff _).mp hh)
  unfold q_r
  exact norm4_normalize4 _ hn0

/-! ### Claims C1, C2, C3. -/

/-- C1, counterexample: the accelerometer input (0,0,1) has unit norm, yet
with a zero magnetometer `FQA.estimate` does not return a unit quaternion:
the returned vector has norm 0. -/
theorem estimate_unit_claim_cex :
    norm3 ![0, 0, 1] = 1 ∧ norm4 (estimate ![1, 0] ![0, 0, 1] ![0, 0, 0]) ≠ 1 := by
  refine ⟨norm3_e3, ?_⟩
  rw [estimate_e3, norm4_zero4]
  norm_num

/-- C1 (amended): for every unit-norm accelerometer with zero magnetometer
the output is independent of the stored magnetic reference, i.e. a function
of the accelerometer alone; and outside the degenerate set
`acc 1 = 0 ∧ 0 < acc 2` (where the roll quaternion vanishes before its
normalization), that output is a unit quaternion. -/
theorem estimate_unit_acc_zero_mag (m_ref m_ref' : Fin 2 → ℝ) (acc : Fin 3 → ℝ)
    (h : norm3 acc = 1) :
    estimate m_ref acc ![0, 0, 0] = estimate m_ref' acc ![0, 0, 0] ∧
    (¬ (acc 1 = 0 ∧ 0 < acc 2) → norm4 (estimate m_ref acc ![0, 0, 0]) = 1) := by
  have ha : norm3 acc ≠ 0 := by rw [h]; exact one_ne_zero
  have hnorm : normalized3 acc = acc := normalized3_of_norm_one acc h
  have hu : acc 0 ^ 2 + acc 1 ^ 2 + acc 2 ^ 2 = 1 := by
    unfold norm3 at h
    exact Real.sqrt_eq_one.mp h
  constructor
  · rw [estimate_mag0 _ _ _ ha norm3_zvec, estimate_mag0 _ _ _ ha norm3_zvec]
  · intro hnd
    rw [estimate_mag0 _ _ _ ha norm3_zvec, hnorm]
    unfold q_er
    apply norm4_normalize4
    rw [norm4_q_prod, norm4_q_e acc, norm4_q_r acc hu hnd]
    norm_num

/-- Witness for C1 at acc = (0,0,-1) (device at rest, NED convention). -/
theorem estimate_unit_acc_zero_mag_witness :
    estimate ![1, 0] ![0, 0, -1] ![0, 0, 0] = estimate ![0, 1] ![0, 0, -1] ![0, 0, 0] ∧
    norm4 (estimate ![1, 0] ![0, 0, -1] ![0, 0, 0]) = 1 :=
  ⟨(estimate_unit_acc_zero_mag ![1, 0] ![0, 1] ![0, 0, -1] (by simp [norm3])).1,
   (estimate_unit_acc_zero_mag ![1, 0] ![0, 1] ![0, 0, -1] (by simp [norm3])).2 (by norm_num)⟩

/-- C2: on the exactly-inverted accelerometer (0,0,1) the roll half-angle
construction yields the all-zero quaternion, its norm is zero (so the in-place
normalization divides by zero), and on this input `FQA.estimate` does not
produce a unit quaternion: the computed output has norm 0. -/
theorem roll_degenerate_inverted (m_ref : Fin 2 → ℝ) :
    q_r_pre ![0, 0, 1] = ![0, 0, 0, 0] ∧
    norm4 (q_r_pre ![0, 0, 1]) = 0 ∧
    norm4 (estimate m_ref ![0, 0, 1] ![0, 0, 0]) = 0 := by
  refine ⟨q_r_pre_e3, ?_, ?_⟩
  · rw [q_r_pre_e3]
    exact norm4_zero4
  · rw [estimate_e3]
    exact norm4_zero4

/-- C3: on acc = (1,0,0) with zero magnetometer, `FQA.estimate` takes the
singular branch (cos(theta) = 0, sin(phi) = cos(phi) = 0) and returns the
pure +90-degree elevation quaternion [sqrt(2)/2, 0, sqrt(2)/2, 0]. -/
theorem estimate_singular_elevation (m_ref : Fin 2 → ℝ) :
    c_theta ![1, 0, 0] = 0 ∧ s_phi ![1, 0, 0] = 0 ∧ c_phi ![1, 0, 0] = 0 ∧
    estimate m_ref ![1, 0, 0] ![0, 0, 0] = ![Real.sqrt 2 / 2, 0, Real.sqrt 2 / 2, 0] := by
  have hsφ : s_phi ![1, 0, 0] = 0 := by
    unfold s_phi
    rw [if_pos c_theta_e1]
  have hcφ : c_phi ![1, 0, 0] = 0 := by
    unfold c_phi
    rw [if_pos c_theta_e1]
  refine ⟨c_theta_e1, hsφ, hcφ, ?_⟩
  rw [estimate_mag0 _ _ _ (by rw [norm3_e1]; exact one_ne_zero) norm3_zvec,
    normalized3_of_norm_one _ norm3_e1, q_er_e1, sqrt_half_eq]

/-! ### Claims C4, C5, C6, C7. -/

/-- C4: for every magnetometer input, a zero-norm accelerometer makes
`FQA.estimate` return exactly the identity quaternion [1,0,0,0]. -/
theorem estimate_zero_acc_identity (m_ref : Fin 2 → ℝ) (acc mag : Fin 3 → ℝ)
    (h : norm3 acc = 0) : estimate m_ref acc mag = ![1, 0, 0, 0] := by
  unfold estimate
  rw [if_pos h]

/-- Witness for C4 at acc = 0, mag = (1,2,3). -/
theorem estimate_zero_acc_identity_witness :
    estimate ![1, 0] ![0, 0, 0] ![1, 2, 3] = ![1, 0, 0, 0] :=
  estimate_zero_acc_identity ![1, 0] ![0, 0, 0] ![1, 2, 3] norm3_zvec

/-- C5: for a nonzero-norm accelerometer and a zero-norm (equivalently, in
this embedding, absent) magnetometer, `FQA.estimate` returns the normalized
elevation-roll product `q_er` of the normalized accelerometer, with no
azimuth correction. -/
theorem estimate_zero_mag_qer (m_ref : Fin 2 → ℝ) (acc mag : Fin 3 → ℝ)
    (ha : norm3 acc ≠ 0) (hm : norm3 mag = 0) :
    estimate m_ref acc mag = q_er (normalized3 acc) :=
  estimate_mag0 m_ref acc mag ha hm

/-- Witness for C5 at acc = (0,0,-1), mag = 0. -/
theorem estimate_zero_mag_qer_witness :
    estimate ![1, 0] ![0, 0, -1] ![0, 0, 0] = q_er (normalized3 ![0, 0, -1]) :=
  estimate_zero_mag_qer ![1, 0] ![0, 0, -1] ![0, 0, 0]
    (by simp [norm3]) norm3_zvec

/-- C6: when the accelerometer or the magnetometer sample has zero norm, the
ROLEQ correction step `oleq` returns the predicted quaternion unchanged. -/
theorem oleq_zero_norm_id (w : Fin 2 → ℝ) (a_ref m_ref acc mag : Fin 3 → ℝ)
    (q_omega : Fin 4 → ℝ) (h : norm3 acc = 0 ∨ norm3 mag = 0) :
    oleq w a_ref m_ref acc mag q_omega = q_omega := by
  unfold oleq
  rw [if_pos]
  rcases h with h | h
  · exact Or.inl (by rw [h]; exact lt_irrefl 0)
  · exact Or.inr (by rw [h]; exact lt_irrefl 0)

/-- Witness for C6 at acc = 0. -/
theorem oleq_zero_norm_id_witness :
    oleq ![1, 1] ![0, 0, -1] ![1, 0, 0] ![0, 0, 0] ![1, 2, 3] ![1, 0, 0, 0] = ![1, 0, 0, 0] :=
  oleq_zero_norm_id ![1, 1] ![0, 0, -1] ![1, 0, 0] ![0, 0, 0] ![1, 2, 3] ![1, 0, 0, 0]
    (Or.inl norm3_zvec)

/-- C7: with zero angular velocity, `ROLEQ.attitude_propagation` returns its
input quaternion unchanged, for every unit quaternion and every Dt > 0. -/
theorem attitude_propagation_zero_gyro (Dt : ℝ) (q : Fin 4 → ℝ)
    (hDt : 0 < Dt) (hq : norm4 q = 1) :
    attitude_propagation Dt q ![0, 0, 0] = q := by
  have hΩ : ∀ i j, Omega ![0, 0, 0] i j = 0 := by
    intro i j
    fin_cases i <;> fin_cases j <;>
      simp [Omega, Matrix.vecHead, Matrix.vecTail]
  unfold attitude_propagation
  have hmv : mat4vec (fun i j => (if i = j then 1 else 0) + 0.5 * Dt * Omega ![0, 0, 0] i j) q = q := by
    funext i
    unfold mat4vec
    simp only [hΩ, mul_zero, add_zero]
    rw [Fin.sum_univ_four]
    fin_cases i <;> simp
  rw [hmv]
  funext i
  unfold normalize4
  rw [hq, div_one]

/-- C10: the FQA constructor keeps only the horizontal (first two) components
of the reference geomagnetic field and normalizes them, so two references
whose first two components are positively proportional produce identical
`estimate` outputs on every input, regardless of their third components. -/
theorem estimate_mag_ref_horizontal (r1 r2 : Fin 3 → ℝ) (c : ℝ) (hc : 0 < c)
    (h0 : r2 0 = c * r1 0) (h1 : r2 1 = c * r1 1) :
    ∀ acc mag : Fin 3 → ℝ,
      estimate (m_ref_of r1) acc mag = estimate (m_ref_of r2) acc mag := by
  suffices hm : m_ref_of r1 = m_ref_of r2 by
    intro acc mag
    rw [hm]
  have hn : norm2 ![r2 0, r2 1] = c * norm2 ![r1 0, r1 1] := by
    unfold norm2
    simp only [Matrix.cons_val_zero, Matrix.cons_val_one, Matrix.head_cons]
    rw [h0, h1, show (c * r1 0) ^ 2 + (c * r1 1) ^ 2 = c ^ 2 * (r1 0 ^ 2 + r1 1 ^ 2) by ring,
      Real.sqrt_mul (sq_nonneg c), Real.sqrt_sq hc.le]
  have hcne : c ≠ 0 := ne_of_gt hc
  funext i
  unfold m_ref_of
  fin_cases i
  · show r1 0 / norm2 ![r1 0, r1 1] = r2 0 / norm2 ![r2 0, r2 1]
    rw [hn, h0, mul_div_mul_left _ _ hcne]
  · show r1 1 / norm2 ![r1 0, r1 1] = r2 1 / norm2 ![r2 0, r2 1]
    rw [hn, h1, mul_div_mul_left _ _ hcne]

/-- Witness for C10 with references (1,0,5) and (2,0,-3), factor 2. -/
theorem estimate_mag_ref_horizontal_witness :
    estimate (m_ref_of ![1, 0, 5]) ![0, 0, -1] ![1, 1, 1]
      = estimate (m_ref_of ![2, 0, -3]) ![0, 0, -1] ![1, 1, 1] :=
  estimate_mag_ref_horizontal ![1, 0, 5] ![2, 0, -3] 2 (by norm_num)
    (by simp) (by simp) ![0, 0, -1] ![1, 1, 1]

/-- Witness for C7 at q = (1,0,0,0), Dt = 1. -/
theorem attitude_propagation_zero_gyro_witness :
    attitude_propagation 1 ![1, 0, 0, 0] ![0, 0, 0] = ![1, 0, 0, 0] :=
  attitude_propagation_zero_gyro 1 ![1, 0, 0, 0] one_pos
    (by simp [norm4, sumsq4])

/-! ### The unwrap transform (calib.py lines 44-46).

`numpy.unwrap` with the default period 2*pi and discontinuity threshold pi:
for each consecutive raw difference `dd`, the difference is wrapped into
(-pi, pi] and the accumulated correction `wrapped - dd` (zeroed when
`|dd| < pi`) is added to every later element.  calib.py applies it
degrees -> radians -> unwrap -> degrees. -/

/-- numpy floating modulo for a positive modulus: `x - y * floor(x / y)`. -/
def fmod (x y : ℝ) : ℝ := x - y * (⌊x / y⌋ : ℤ)

/-- The per-pair phase correction of numpy.unwrap (period 2*pi). -/
def unwrap_correction (dd : ℝ) : ℝ :=
  let ddmod := fmod (dd + Real.pi) (2 * Real.pi) - Real.pi
  let ddmod2 := if ddmod = -Real.pi ∧ 0 < dd then Real.pi else ddmod
  if |dd| < Real.pi then 0 else ddmod2 - dd

/-- Tail of numpy.unwrap: `prev` is the previous raw element, `acc` the
accumulated correction applied to every element from here on. -/
def unwrap_go (prev acc : ℝ) : List ℝ → List ℝ
  | [] => []
  | x :: xs =>
    let acc2 := acc + unwrap_correction (x - prev)
    (x + acc2) :: unwrap_go x acc2 xs

/-- numpy.unwrap on a radian series: the first element is unchanged. -/
def unwrap : List ℝ → List ℝ
  | [] => []
  | x :: xs => x :: unwrap_go x 0 xs

/-- calib.py lines 44-46: `degrees(unwrap(radians(series)))`. -/
def unwrap_degrees (xs : List ℝ) : List ℝ :=
  (unwrap (xs.map fun d => d * (Real.pi / 180))).map fun r => r * (180 / Real.pi)

/-- The raw -358-degree jump (in radians) gets a +2*pi correction. -/
theorem unwrap_correction_neg358 :
    unwrap_correction (-(179 / 90) * Real.pi) = 2 * Real.pi := by
  have hπ := Real.pi_pos
  have harg : -(179 / 90) * Real.pi + Real.pi = -(89 / 90) * Real.pi := by ring
  have hdiv : -(89 / 90) * Real.pi / (2 * Real.pi) = -(89 / 180 : ℝ) := by
    rw [div_eq_iff (by positivity : (2 : ℝ) * Real.pi ≠ 0)]
    ring
  have hfloor : ⌊(-(89 / 180) : ℝ)⌋ = -1 := by
    rw [Int.floor_eq_iff]
    constructor <;> push_cast <;> norm_num
  have hfmod : fmod (-(179 / 90) * Real.pi + Real.pi) (2 * Real.pi) = 91 / 90 * Real.pi := by
    unfold fmod
    rw [harg, hdiv, hfloor]
    push_cast
    ring
  unfold unwrap_correction
  rw [hfmod]
  rw [if_neg (by push_neg; rw [abs_of_nonpos (by nlinarith)]; nlinarith),
    if_neg (by intro h; nlinarith [h.1])]
  ring

/-- C9: a degree series jumping from 179 to -179 (raw delta -358) unwraps to
[179, 181]: the first element is unchanged and the consecutive difference is
+2 degrees, not -358. -/
theorem unwrap_degrees_179_jump : unwrap_degrees [179, -179] = [179, 181] := by
  have hπ : Real.pi ≠ 0 := Real.pi_ne_zero
  have hdd : -179 * (Real.pi / 180) - 179 * (Real.pi / 180) = -(179 / 90) * Real.pi := by
    ring
  simp only [unwrap_degrees, List.map, unwrap, unwrap_go]
  rw [hdd, unwrap_correction_neg358]
  have h1 : 179 * (Real.pi / 180) * (180 / Real.pi) = 179 := by
    field_simp
  have h2 : (-179 * (Real.pi / 180) + (0 + 2 * Real.pi)) * (180 / Real.pi) = 181 := by
    field_simp
    ring
  rw [h1, h2]

end

/-! ### The 48 candidate alignment matrices (calib.py lines 17-26).

calib.py enumerates `itertools.permutations(range(3))` (6 permutations, in
lexicographic order) against `itertools.product([-1, 1], repeat=3)` (8 sign
triples) and builds `mat[i, perm[i]] = signs[i]`.  Entries are -1/0/1, so the
matrices are embedded over the integers. -/

/-- calib.py line 17: the six permutations of (0,1,2), in itertools order. -/
def axis_permutations : List (Fin 3 → Fin 3) :=
  [![0, 1, 2], ![0, 2, 1], ![1, 0, 2], ![1, 2, 0], ![2, 0, 1], ![2, 1, 0]]

/-- calib.py line 18: the eight sign triples over -1, 1, in itertools order. -/
def sign_combinations : List (Fin 3 → ℤ) :=
  [![-1, -1, -1], ![-1, -1, 1], ![-1, 1, -1], ![-1, 1, 1],
   ![1, -1, -1], ![1, -1, 1], ![1, 1, -1], ![1, 1, 1]]

/-- calib.py lines 23-25: the matrix with `mat[i, perm[i]] = signs[i]` and
zeros elsewhere. -/
def alignment_matrix (perm : Fin 3 → Fin 3) (signs : Fin 3 → ℤ) : Fin 3 → Fin 3 → ℤ :=
  fun i j => if j = perm i then signs i else 0

/-- calib.py lines 19-26: all 48 candidates, outer loop over permutations,
inner loop over sign triples. -/
def all_alignments : List (Fin 3 → Fin 3 → ℤ) :=
  axis_permutations.flatMap fun p => sign_combinations.map fun s => alignment_matrix p s

/-- Product of two 3x3 integer matrices. -/
def mul3 (A B : Fin 3 → Fin 3 → ℤ) : Fin 3 → Fin 3 → ℤ :=
  fun i j => ∑ k, A i k * B k j

/-- Transpose of a 3x3 integer matrix. -/
def transpose3 (A : Fin 3 → Fin 3 → ℤ) : Fin 3 → Fin 3 → ℤ := fun i j => A j i

/-- The 3x3 identity matrix. -/
def id3 : Fin 3 → Fin 3 → ℤ := fun i j => if i = j then 1 else 0

/-- C8: the candidate enumeration yields exactly 48 pairwise-distinct
matrices; each is a signed permutation (every row has exactly one nonzero
entry, of value 1 or -1) and is orthogonal (its transpose is a two-sided
inverse); the identity and all 8 of its sign-flips are among them. -/
theorem all_alignments_are_signed_perms :
    all_alignments.length = 48 ∧
    all_alignments.Nodup ∧
    (∀ M ∈ all_alignments,
      (∀ i : Fin 3, (Finset.univ.filter fun j => M i j ≠ 0).card = 1) ∧
      (∀ i j : Fin 3, M i j = 0 ∨ M i j = 1 ∨ M i j = -1) ∧
      mul3 M (transpose3 M) = id3 ∧ mul3 (transpose3 M) M = id3) ∧
    id3 ∈ all_alignments ∧
    (∀ s ∈ sign_combinations, (fun i j => if i = j then s i else 0) ∈ all_alignments) := by
  decide

end WPAUV
